import Mathlib

/-!
Verification of the balanced train/validation splitter from `src/utils.py`
(function `balanced_split`). The function walks the label sequence `y` once,
keeping four counters, and appends `-1` (TRAIN) or `1` (VALIDATION) for each
label. Labels are integers; the code compares each element against `1`
(outlier) and treats everything else as normal.
-/

/-- The four running counters of `balanced_split`
(`norm_train`, `norm_test`, `out_train`, `out_test` in the source). -/
structure SplitState where
  norm_train : Nat
  norm_test : Nat
  out_train : Nat
  out_test : Nat
deriving Repr, DecidableEq

/-- All counters start at zero (lines 97-100 of `utils.py`). -/
def initState : SplitState := ⟨0, 0, 0, 0⟩

/-- One iteration of the loop body (lines 101-115 of `utils.py`):
given the current counters and the label `v`, return the updated counters
and the appended marker (`-1` = TRAIN, `1` = VALIDATION).
`v == 1` is an outlier; any other value falls into the `else` (normal) branch,
exactly as in the source. -/
def step (s : SplitState) (v : Int) : SplitState × Int :=
  if v = 1 then
    if 0 < s.out_train then
      ({ s with out_test := s.out_test + 1 }, 1)
    else
      ({ s with out_train := s.out_train + 1 }, -1)
  else
    if s.norm_test < s.out_test then
      ({ s with norm_test := s.norm_test + 1 }, 1)
    else
      ({ s with norm_train := s.norm_train + 1 }, -1)

/-- The list `selected_indices` produced by the loop, starting from state `s`. -/
def splitAux (s : SplitState) : List Int → List Int
  | [] => []
  | v :: rest => (step s v).2 :: splitAux (step s v).1 rest

/-- The counters after the loop has consumed the whole list, starting from `s`. -/
def runState (s : SplitState) : List Int → SplitState
  | [] => s
  | v :: rest => runState (step s v).1 rest

/-- `balanced_split` (lines 81-124 of `utils.py`): returns `selected_indices`.
The `print_flag` argument only controls the diagnostic prints (modelled by
`diagnostics` below) and does not enter the computation of the result. -/
def balanced_split (y : List Int) (print_flag : Bool := true) : List Int :=
  splitAux initState y

/-- The diagnostic output of `balanced_split` (lines 117-122 of `utils.py`):
five labelled counts, emitted only when `print_flag` is set. -/
def diagnostics (y : List Int) (print_flag : Bool) : List (String × Nat) :=
  if print_flag then
    [("Number of total samples to split", y.length),
     ("Number of outliers in training", (runState initState y).out_train),
     ("Number of outliers in test", (runState initState y).out_test),
     ("Number of normal points in training", (runState initState y).norm_train),
     ("Number of normal points in test", (runState initState y).norm_test)]
  else []

/-- Sum of the four counters. -/
def SplitState.total (s : SplitState) : Nat :=
  s.norm_train + s.norm_test + s.out_train + s.out_test

-- ### Basic structural lemmas

theorem splitAux_length (s : SplitState) (y : List Int) :
    (splitAux s y).length = y.length := by
  induction y generalizing s with
  | nil => rfl
  | cons v rest ih => simp [splitAux, ih]

theorem runState_append (s : SplitState) (xs ys : List Int) :
    runState s (xs ++ ys) = runState (runState s xs) ys := by
  induction xs generalizing s with
  | nil => rfl
  | cons v rest ih => simp [runState, ih]

theorem splitAux_append (s : SplitState) (xs ys : List Int) :
    splitAux s (xs ++ ys) = splitAux s xs ++ splitAux (runState s xs) ys := by
  induction xs generalizing s with
  | nil => rfl
  | cons v rest ih => simp [splitAux, runState, ih]

theorem splitAux_mem (s : SplitState) (y : List Int) :
    ∀ a ∈ splitAux s y, a = -1 ∨ a = 1 := by
  induction y generalizing s with
  | nil => intro a ha; simp [splitAux] at ha
  | cons v rest ih =>
    intro a ha
    simp only [splitAux, List.mem_cons] at ha
    rcases ha with h | h
    · subst h
      unfold step
      split_ifs <;> simp
    · exact ih _ a h

theorem count_neg_one_add_count_one (l : List Int)
    (h : ∀ a ∈ l, a = -1 ∨ a = 1) :
    l.count (-1) + l.count 1 = l.length := by
  induction l with
  | nil => simp
  | cons a rest ih =>
    have ha := h a (List.mem_cons_self a rest)
    have hrest : ∀ b ∈ rest, b = -1 ∨ b = 1 := fun b hb => h b (List.mem_cons_of_mem a hb)
    have ihh := ih hrest
    rcases ha with ha | ha <;> subst ha <;>
      simp [List.count_cons] <;> omega

-- ### Counter/count correspondences

theorem out_train_runState (s : SplitState) (y : List Int) :
    (runState s y).out_train =
      s.out_train +
        List.countP (fun p => p.1 == 1 && p.2 == -1) (y.zip (splitAux s y)) := by
  induction y generalizing s with
  | nil => simp [runState, splitAux]
  | cons v rest ih =>
    by_cases hv : v = 1
    · by_cases ht : 0 < s.out_train
      · simp [runState, splitAux, step, hv, ht, List.countP_cons, ih]
        all_goals omega
      · simp [runState, splitAux, step, hv, ht, List.countP_cons, ih]
        all_goals omega
    · by_cases hn : s.norm_test < s.out_test
      · simp [runState, splitAux, step, hv, hn, List.countP_cons, ih]
        all_goals omega
      · simp [runState, splitAux, step, hv, hn, List.countP_cons, ih]
        all_goals omega

theorem out_test_runState (s : SplitState) (y : List Int) :
    (runState s y).out_test =
      s.out_test +
        List.countP (fun p => p.1 == 1 && p.2 == 1) (y.zip (splitAux s y)) := by
  induction y generalizing s with
  | nil => simp [runState, splitAux]
  | cons v rest ih =>
    by_cases hv : v = 1
    · by_cases ht : 0 < s.out_train
      · simp [runState, splitAux, step, hv, ht, List.countP_cons, ih]
        all_goals omega
      · simp [runState, splitAux, step, hv, ht, List.countP_cons, ih]
        all_goals omega
    · by_cases hn : s.norm_test < s.out_test
      · simp [runState, splitAux, step, hv, hn, List.countP_cons, ih]
        all_goals omega
      · simp [runState, splitAux, step, hv, hn, List.countP_cons, ih]
        all_goals omega

theorem norm_test_runState (s : SplitState) (y : List Int) :
    (runState s y).norm_test =
      s.norm_test +
        List.countP (fun p => !(p.1 == 1) && p.2 == 1) (y.zip (splitAux s y)) := by
  induction y generalizing s with
  | nil => simp [runState, splitAux]
  | cons v rest ih =>
    by_cases hv : v = 1
    · by_cases ht : 0 < s.out_train
      · simp [runState, splitAux, step, hv, ht, List.countP_cons, ih]
        all_goals omega
      · simp [runState, splitAux, step, hv, ht, List.countP_cons, ih]
        all_goals omega
    · by_cases hn : s.norm_test < s.out_test
      · simp [runState, splitAux, step, hv, hn, List.countP_cons, ih]
        all_goals omega
      · simp [runState, splitAux, step, hv, hn, List.countP_cons, ih]
        all_goals omega

-- ### Counter invariants, preserved along the run

theorem out_train_le_one (s : SplitState) (y : List Int)
    (h : s.out_train ≤ 1) : (runState s y).out_train ≤ 1 := by
  induction y generalizing s with
  | nil => exact h
  | cons v rest ih =>
    simp only [runState]
    apply ih
    unfold step
    split_ifs <;> simp <;> omega

theorem out_train_mono (s : SplitState) (y : List Int) :
    s.out_train ≤ (runState s y).out_train := by
  induction y generalizing s with
  | nil => exact Nat.le_refl _
  | cons v rest ih =>
    simp only [runState]
    refine Nat.le_trans ?_ (ih _)
    unfold step
    split_ifs <;> simp

theorem out_train_pos_of_mem (s : SplitState) (y : List Int)
    (h : (1 : Int) ∈ y) : 0 < (runState s y).out_train := by
  induction y generalizing s with
  | nil => simp at h
  | cons v rest ih =>
    simp only [runState]
    rcases List.mem_cons.mp h with hv | hv
    · subst hv
      refine Nat.lt_of_lt_of_le ?_ (out_train_mono _ rest)
      unfold step
      split_ifs <;> simp <;> omega
    · exact ih _ hv

theorem out_train_const_of_no_outlier (s : SplitState) (y : List Int)
    (h : (1 : Int) ∉ y) : (runState s y).out_train = s.out_train := by
  induction y generalizing s with
  | nil => rfl
  | cons v rest ih =>
    simp only [runState]
    have hv : v ≠ 1 := fun hv => h (hv ▸ List.mem_cons_self v rest)
    have hrest : (1 : Int) ∉ rest := fun hr => h (List.mem_cons_of_mem v hr)
    rw [ih _ hrest]
    unfold step
    split_ifs <;> simp_all

theorem norm_test_le_out_test (s : SplitState) (y : List Int)
    (h : s.norm_test ≤ s.out_test) :
    (runState s y).norm_test ≤ (runState s y).out_test := by
  induction y generalizing s with
  | nil => exact h
  | cons v rest ih =>
    simp only [runState]
    apply ih
    unfold step
    split_ifs <;> simp <;> omega

theorem total_runState (s : SplitState) (y : List Int) :
    (runState s y).total = s.total + y.length := by
  induction y generalizing s with
  | nil => simp [runState]
  | cons v rest ih =>
    simp only [runState, ih, List.length_cons]
    unfold step SplitState.total
    split_ifs <;> simp <;> omega

theorem splitAux_take (s : SplitState) (y : List Int) (k : Nat) :
    splitAux s (y.take k) = (splitAux s y).take k := by
  induction y generalizing s k with
  | nil => simp [splitAux]
  | cons v rest ih =>
    cases k with
    | zero => simp [splitAux]
    | succ k => simp [splitAux, ih]

theorem zip_take_eq (l : List Int) (l' : List Int) (n : Nat) :
    (l.zip l').take n = (l.take n).zip (l'.take n) := by
  simp [List.zip_eq_zipWith, List.take_zipWith]

theorem splitAux_all_normal (s : SplitState) (y : List Int)
    (hy : ∀ v ∈ y, v ≠ 1) (hs : s.out_test ≤ s.norm_test) :
    splitAux s y = List.replicate y.length (-1) := by
  induction y generalizing s with
  | nil => rfl
  | cons v rest ih =>
    have hv : v ≠ 1 := hy v (List.mem_cons_self v rest)
    have hrest : ∀ w ∈ rest, w ≠ 1 := fun w hw => hy w (List.mem_cons_of_mem v hw)
    have hcond : ¬ s.norm_test < s.out_test := Nat.not_lt.mpr hs
    simp only [splitAux, step, if_neg hv, if_neg hcond, List.length_cons,
      List.replicate_succ, List.cons.injEq]
    exact ⟨by simp, ih _ hrest (by simpa using hs)⟩

theorem step_outlier_val (s : SplitState) (h : 0 < s.out_train) :
    (step s 1).2 = 1 := by
  simp [step, h]

theorem step_outlier_train (s : SplitState) (h : s.out_train = 0) :
    (step s 1).2 = -1 := by
  simp [step, h]

-- ### Claim theorems

/-- C1: for every binary label sequence `y` (length `N ≥ 0`, the empty
sequence included), `balanced_split` returns an assignment sequence of exactly
`N` elements, each element one of the two markers `-1` (TRAIN) or `1`
(VALIDATION), so `count(TRAIN) + count(VALIDATION) = N`; for `N = 0` the
result is empty. -/
theorem claim_C1 (y : List Int) (f : Bool) :
    (balanced_split y f).length = y.length ∧
    (balanced_split y f).count (-1) + (balanced_split y f).count 1 = y.length ∧
    (∀ a ∈ balanced_split y f, a = -1 ∨ a = 1) ∧
    balanced_split ([] : List Int) f = [] := by
  refine ⟨splitAux_length _ _, ?_, splitAux_mem _ _, rfl⟩
  have hmem : ∀ a ∈ balanced_split y f, a = -1 ∨ a = 1 := splitAux_mem _ _
  rw [count_neg_one_add_count_one _ hmem]
  exact splitAux_length _ _

/-- Witness for C1 at the concrete input `[1,0,1,0,0]`. -/
theorem claim_C1_witness :
    (balanced_split [1, 0, 1, 0, 0] true).length = 5 ∧
    (balanced_split [1, 0, 1, 0, 0] true).count (-1) +
      (balanced_split [1, 0, 1, 0, 0] true).count 1 = 5 := by
  have h := claim_C1 [1, 0, 1, 0, 0] true
  exact ⟨by simpa using h.1, by simpa using h.2.1⟩

/-- C2: for every binary label sequence, at most one position labeled outlier
(`1`) is assigned TRAIN (`-1`); every outlier preceded by an earlier outlier is
assigned VALIDATION (`1`). -/
theorem claim_C2 (y : List Int) (f : Bool) :
    List.countP (fun p => p.1 == 1 && p.2 == -1) (y.zip (balanced_split y f)) ≤ 1 ∧
    ∀ pre post, y = pre ++ 1 :: post → (1 : Int) ∈ pre →
      (balanced_split y f)[pre.length]? = some 1 := by
  constructor
  · have hc := out_train_runState initState y
    have hb := out_train_le_one initState y (by simp [initState])
    have h0 : initState.out_train = 0 := rfl
    rw [h0] at hc
    unfold balanced_split
    omega
  · intro pre post hy hpre
    subst hy
    unfold balanced_split
    rw [splitAux_append]
    rw [List.getElem?_append_right (by rw [splitAux_length])]
    rw [splitAux_length]
    simp only [Nat.sub_self, splitAux]
    rw [step_outlier_val _ (out_train_pos_of_mem initState pre hpre)]
    simp

/-- Witness for C2 at the concrete input `[1,1]`: the count of outliers in
TRAIN is at most one, and the second outlier goes to VALIDATION. -/
theorem claim_C2_witness :
    List.countP (fun p => p.1 == 1 && p.2 == -1)
        ([1, 1].zip (balanced_split [1, 1] true)) ≤ 1 ∧
    (balanced_split [1, 1] true)[1]? = some 1 := by
  have h := claim_C2 [1, 1] true
  exact ⟨h.1, by simpa using h.2 [1] [] rfl (by decide)⟩

/-- C3: for every sequence containing at least one outlier, the first outlier
(the one at position `pre.length`, where `pre` holds no outlier) is assigned
TRAIN (`-1`). -/
theorem claim_C3 (pre post : List Int) (f : Bool) (h : (1 : Int) ∉ pre) :
    (balanced_split (pre ++ 1 :: post) f)[pre.length]? = some (-1) := by
  unfold balanced_split
  rw [splitAux_append]
  rw [List.getElem?_append_right (by rw [splitAux_length])]
  rw [splitAux_length]
  simp only [Nat.sub_self, splitAux]
  rw [step_outlier_train]
  · simp
  · rw [out_train_const_of_no_outlier initState pre h]
    rfl

/-- Witness for C3 at the concrete input `[0,1]`: the first outlier, at
position 1, is assigned TRAIN. -/
theorem claim_C3_witness : (balanced_split [0, 1] true)[1]? = some (-1) := by
  simpa using claim_C3 [0] [] true (by decide)

theorem step_normalize (s : SplitState) (v : Int) :
    step s (if v = 1 then 1 else 0) = step s v := by
  by_cases hv : v = 1
  · simp [hv]
  · simp [step, hv]

theorem splitAux_normalize (s : SplitState) (y : List Int) :
    splitAux s (y.map fun v => if v = 1 then 1 else 0) = splitAux s y := by
  induction y generalizing s with
  | nil => rfl
  | cons v rest ih => simp [splitAux, step_normalize, ih]

/-- C4 counterexample: the input `[2]` holds an element outside `{0,1}`, yet
`balanced_split` does not fail; it treats `2` as a normal sample and returns
the full assignment sequence `[-1]` (TRAIN). The source has no validation of
labels at all: only `v == 1` is tested, every other value takes the normal
branch. -/
theorem claim_C4_counterexample :
    balanced_split [2] true = [-1] ∧ (balanced_split [2] true).length = 1 := by
  exact ⟨rfl, rfl⟩

/-- C4 amended: `balanced_split` performs no input validation and never fails;
any element different from `1` (including values outside `{0,1}` such as `2`)
is routed exactly as a normal (`0`) sample, and an assignment is produced for
every element. -/
theorem claim_C4 (y : List Int) (f : Bool) :
    balanced_split (y.map fun v => if v = 1 then 1 else 0) f = balanced_split y f ∧
    (balanced_split y f).length = y.length :=
  ⟨splitAux_normalize initState y, splitAux_length initState y⟩

/-- C5: an all-zeros label sequence is assigned entirely to TRAIN: the output
is `-1` at every position. -/
theorem claim_C5 (y : List Int) (f : Bool) (h : ∀ v ∈ y, v = 0) :
    balanced_split y f = List.replicate y.length (-1) := by
  unfold balanced_split
  exact splitAux_all_normal initState y
    (fun v hv => by rw [h v hv]; decide) (Nat.le_refl 0)

/-- Witness for C5 at the spec's concrete scenario 1: input `[0,0,0,0]`
yields `[TRAIN,TRAIN,TRAIN,TRAIN]`, i.e. `[-1,-1,-1,-1]`. -/
theorem claim_C5_witness : balanced_split [0, 0, 0, 0] true = [-1, -1, -1, -1] := by
  have h := claim_C5 [0, 0, 0, 0] true (by decide)
  rw [h]; decide

/-- C6: the spec's concrete scenario 3: input `[1,0,1,0,0]` produces
`[TRAIN,TRAIN,VALIDATION,VALIDATION,TRAIN]`, i.e. `[-1,-1,1,1,-1]`, and the
counters evolve along the traced prefix states
(`out_train`, `out_test`, `norm_train`, `norm_test` shown in the record order
`⟨norm_train, norm_test, out_train, out_test⟩`). -/
theorem claim_C6 :
    balanced_split [1, 0, 1, 0, 0] true = [-1, -1, 1, 1, -1] ∧
    runState initState ([1, 0, 1, 0, 0].take 1) = ⟨0, 0, 1, 0⟩ ∧
    runState initState ([1, 0, 1, 0, 0].take 2) = ⟨1, 0, 1, 0⟩ ∧
    runState initState ([1, 0, 1, 0, 0].take 3) = ⟨1, 0, 1, 1⟩ ∧
    runState initState ([1, 0, 1, 0, 0].take 4) = ⟨1, 1, 1, 1⟩ ∧
    runState initState [1, 0, 1, 0, 0] = ⟨2, 1, 1, 1⟩ := by
  decide

/-- C7: the spec's concrete scenario 2: input `[1,1,1]` produces
`[TRAIN,VALIDATION,VALIDATION]`, i.e. `[-1,1,1]`. -/
theorem claim_C7 : balanced_split [1, 1, 1] true = [-1, 1, 1] := by
  decide

/-- C8: after processing any prefix of `k` elements, the four counters sum to
`k`, the number of samples processed so far. -/
theorem claim_C8 (y : List Int) (k : Nat) (h : k ≤ y.length) :
    (runState initState (y.take k)).total = k := by
  rw [total_runState]
  have h0 : initState.total = 0 := rfl
  rw [h0, List.length_take]
  omega

/-- Witness for C8 at the prefix of length 3 of `[1,0,1,0,0]`. -/
theorem claim_C8_witness : (runState initState ([1, 0, 1, 0, 0].take 3)).total = 3 :=
  claim_C8 [1, 0, 1, 0, 0] 3 (by decide)

/-- C9: `balanced_split` is a pure, deterministic function of the label
sequence: two invocations on equal inputs return equal assignment sequences,
whatever the value of the diagnostic flag, which never enters the result. -/
theorem claim_C9 (y y' : List Int) (f f' : Bool) (h : y = y') :
    balanced_split y f = balanced_split y' f' := by
  subst h; rfl

/-- Witness for C9: the same input with the flag on and off gives the same
result. -/
theorem claim_C9_witness : balanced_split [1, 0] true = balanced_split [1, 0] false :=
  claim_C9 [1, 0] [1, 0] true false rfl

/-- C10 (implicit): at every step the validation-normal counter never exceeds
the validation-outlier counter, so in every prefix of the output the number of
normals assigned VALIDATION is at most the number of outliers assigned
VALIDATION. -/
theorem claim_C10 (y : List Int) (f : Bool) (k : Nat) :
    (runState initState (y.take k)).norm_test ≤ (runState initState (y.take k)).out_test ∧
    List.countP (fun p => !(p.1 == 1) && p.2 == 1) ((y.zip (balanced_split y f)).take k) ≤
      List.countP (fun p => p.1 == 1 && p.2 == 1) ((y.zip (balanced_split y f)).take k) := by
  constructor
  · exact norm_test_le_out_test initState _ (Nat.le_refl 0)
  · have hz : (y.zip (balanced_split y f)).take k
        = (y.take k).zip (splitAux initState (y.take k)) := by
      rw [zip_take_eq]
      unfold balanced_split
      rw [← splitAux_take]
    rw [hz]
    have hn := norm_test_runState initState (y.take k)
    have ho := out_test_runState initState (y.take k)
    have hle := norm_test_le_out_test initState (y.take k) (Nat.le_refl 0)
    have h1 : initState.norm_test = 0 := rfl
    have h2 : initState.out_test = 0 := rfl
    rw [h1] at hn
    rw [h2] at ho
    omega
